import Mathlib

/-!
# Verification of the EMD analysis engine (`src/emd_analyzer.py`)

Shallow embedding of the decomposition-and-spectral-analysis core of the
repository.  Real (float) arithmetic is modelled by exact rationals `ℚ`.
`np.std(xs) < t` (resp. `> t`) for a nonnegative threshold `t` is modelled as
`npVar xs < t^2` (resp. `> t^2`), which is equivalent over the reals and keeps
everything computable.

The analytic-signal construction (`scipy.signal.hilbert` followed by `np.abs`
and `np.unwrap (np.angle ...)`) is an external-library transcendental
computation, not code of this repository; it is modelled by two function
parameters `hAmp hPhase : List ℚ → List ℚ` giving, for a mode, its
instantaneous amplitude sequence and its unwrapped phase sequence.  Everything
the repository itself does with those sequences is embedded faithfully.
-/

namespace EMDA

/-- Elementwise vector addition (numpy `+` on equal-length arrays). -/
def addVec (xs ys : List ℚ) : List ℚ := List.zipWith (· + ·) xs ys

/-- Elementwise vector subtraction (numpy `-` on equal-length arrays). -/
def subVec (xs ys : List ℚ) : List ℚ := List.zipWith (· - ·) xs ys

/-- `np.mean` (for the empty array the rational convention `0/0 = 0` is used;
numpy would give `nan`, and no reachable call site passes an empty array). -/
def npMean (xs : List ℚ) : ℚ := xs.sum / (xs.length : ℚ)

/-- Population variance, i.e. `np.std` squared.  All comparisons of `np.std`
with a threshold in the source are embedded as comparisons of `npVar` with the
squared threshold. -/
def npVar (xs : List ℚ) : ℚ := (xs.map (fun x => (x - npMean xs) ^ 2)).sum / (xs.length : ℚ)

/-- The `1e-10` threshold used by `EMD._simple_emd` for both `np.std` tests. -/
def stdTol : ℚ := 1 / 10 ^ 10

/-- `EMD._sift`: the source's placeholder sifting step, `return signal * 0.1`. -/
def sift (signal : List ℚ) : List ℚ := signal.map (fun x => x * (1 / 10))

/-- The `for i in range(10)` loop of `EMD._simple_emd`: at most `fuel`
iterations; stop when the residue is shorter than 4 samples or when the sifted
candidate has `np.std < 1e-10`; otherwise record the candidate mode and
subtract it from the residue.  Returns (extracted modes, final residue). -/
def simpleEmdLoop : Nat → List ℚ → List (List ℚ) × List ℚ
  | 0, residue => ([], residue)
  | fuel + 1, residue =>
    if residue.length < 4 then ([], residue)
    else
      let imf := sift residue
      if npVar imf < stdTol ^ 2 then ([], residue)
      else
        let p := simpleEmdLoop fuel (subVec residue imf)
        (imf :: p.1, p.2)

/-- The final residue held by `EMD._simple_emd` after its loop. -/
def emdResidue (signal : List ℚ) : List ℚ := (simpleEmdLoop 10 signal).2

/-- `EMD._simple_emd`: run the loop (ceiling of 10 modes), then append the
final residue to the output iff `np.std(residue) > 1e-10`. -/
def simple_emd (signal : List ℚ) : List (List ℚ) :=
  let p := simpleEmdLoop 10 signal
  if stdTol ^ 2 < npVar p.2 then p.1 ++ [p.2] else p.1

example : simple_emd [1, 2, 3] = [[1, 2, 3]] := by with_unfolding_all decide

example : simple_emd (List.replicate 4 (42 : ℚ)) = [] := by with_unfolding_all decide

example : (simple_emd [1, 2, 3, 4]).length = 11 := by with_unfolding_all decide

/-- `np.diff`: first differences, `xs[i+1] - xs[i]`. -/
def npDiff (xs : List ℚ) : List ℚ := List.zipWith (fun a b => a - b) xs.tail xs

/-- `np.append(freq, freq[-1])`: pad by repeating the last value.  (On an
empty array the source's `freq[-1]` raises `IndexError`; that call is
unreachable through `analyze_signal`, whose modes all have length ≥ 4.) -/
def padLast (xs : List ℚ) : List ℚ := xs ++ xs.getLast?.toList

/-- The per-mode frequency computation of
`HilbertTransform.compute_instantaneous_frequency`:
`freq = (1/dt) * np.diff(phase) / (2*math.pi)`, then pad to the phase's
length by repeating the last value.  `tpi` stands for the real constant
`2 * math.pi`; `hPhase imf` stands for `np.unwrap(np.angle(hilbert(imf)))`. -/
def instFreqOf (hPhase : List ℚ → List ℚ) (tpi dt : ℚ) (imf : List ℚ) : List ℚ :=
  padLast ((npDiff (hPhase imf)).map (fun x => 1 / dt * x / tpi))

/-- The length-reconciliation step of `compute_instantaneous_frequency`:
`if len(amplitude) > len(freq): amplitude = amplitude[:len(freq)]`
`elif len(freq) > len(amplitude): freq = freq[:len(amplitude)]`. -/
def reconcile (freq amplitude : List ℚ) : List ℚ × List ℚ :=
  if amplitude.length > freq.length then (freq, amplitude.take freq.length)
  else if freq.length > amplitude.length then (freq.take amplitude.length, amplitude)
  else (freq, amplitude)

/-- One iteration of the `for i in range(n_imfs - 1)` body: compute the
amplitude (`hAmp imf`, standing for `np.abs(hilbert(imf))`) and the padded
instantaneous frequency, then reconcile their lengths. -/
def imfFreqAmp (hAmp hPhase : List ℚ → List ℚ) (tpi dt : ℚ) (imf : List ℚ) :
    List ℚ × List ℚ :=
  reconcile (instFreqOf hPhase tpi dt imf) (hAmp imf)

/-- `HilbertTransform.compute_instantaneous_frequency`: process every IMF row
except the last one (the residue) and collect the per-mode frequency and
amplitude sequences.  The source stores them transposed
(`np.array(frequencies).T`, indexed `[sample, mode]`); the embedding keeps the
mode-major layout, so row `i` here is column `i` there. -/
def compute_instantaneous_frequency (hAmp hPhase : List ℚ → List ℚ) (tpi dt : ℚ)
    (imfs : List (List ℚ)) : List (List ℚ) × List (List ℚ) :=
  (imfs.dropLast.map (fun imf => (imfFreqAmp hAmp hPhase tpi dt imf).1),
   imfs.dropLast.map (fun imf => (imfFreqAmp hAmp hPhase tpi dt imf).2))

/-- `np.sum(weights * freqs)`: dot product of two equal-length vectors. -/
def dotQ (xs ys : List ℚ) : ℚ := (List.zipWith (· * ·) xs ys).sum

/-- The python slice `xs[j - half : j + half + 1]` used by `wafa_smoothing`
(for `half = window // 2` and `half ≤ j`). -/
def windowSlice (xs : List ℚ) (j half : Nat) : List ℚ :=
  (xs.drop (j - half)).take (2 * half + 1)

/-- The body of `HilbertTransform.wafa_smoothing` at one sample index `j` of
one mode: inside `range(window//2, n_samples - window//2)` replace the value
by the amplitude-weighted window average when the window's total weight is
positive, otherwise (and at the edges) keep the original value.  Reads always
come from the unsmoothed input, matching the source, which writes into a copy
but reads from `frequencies`. -/
def wafaEntry (window : Nat) (fRow aRow : List ℚ) (j : Nat) : ℚ :=
  if window / 2 ≤ j ∧ j + window / 2 < fRow.length then
    let w := windowSlice aRow j (window / 2)
    let f := windowSlice fRow j (window / 2)
    if 0 < w.sum then dotQ w f / w.sum else fRow.getD j 0
  else fRow.getD j 0

/-- One mode's smoothed frequency sequence. -/
def wafaRow (window : Nat) (fRow aRow : List ℚ) : List ℚ :=
  (List.range fRow.length).map (wafaEntry window fRow aRow)

/-- `HilbertTransform.wafa_smoothing` (mode-major layout; the source iterates
`i` over modes and `j` over samples of the `[sample, mode]` matrices). -/
def wafa_smoothing (window : Nat) (frequencies amplitudes : List (List ℚ)) :
    List (List ℚ) :=
  (List.range frequencies.length).map
    (fun i => wafaRow window (frequencies.getD i []) (amplitudes.getD i []))

/-- The statistics record returned by `EMDAnalyzer._compute_statistics`. -/
structure Statistics where
  mean_frequencies : List ℚ
  mean_periods : List ℚ
  mean_amplitudes : List ℚ
deriving Repr, DecidableEq

/-- Amplitude-weighted mean frequency of one mode:
`np.sum(amp * freq) / np.sum(amp)` when `np.sum(amp) > 0`, else `0`. -/
def meanFreqOf (freq amp : List ℚ) : ℚ :=
  if 0 < amp.sum then dotQ amp freq / amp.sum else 0

/-- Mean period of one mode: `1.0 / mean_freq` when `mean_freq > 0`, else `0`. -/
def meanPeriodOf (mf : ℚ) : ℚ := if 0 < mf then 1 / mf else 0

/-- `EMDAnalyzer._compute_statistics`.  The source loops `i` over
`frequencies.shape[1]` (the number of true modes) appending to three lists;
here each list is produced by mapping over the same index range. -/
def compute_statistics (frequencies amplitudes : List (List ℚ)) : Statistics :=
  { mean_frequencies := (List.range frequencies.length).map
      (fun i => meanFreqOf (frequencies.getD i []) (amplitudes.getD i [])),
    mean_periods := (List.range frequencies.length).map
      (fun i => meanPeriodOf (meanFreqOf (frequencies.getD i []) (amplitudes.getD i []))),
    mean_amplitudes := (List.range frequencies.length).map
      (fun i => npMean (amplitudes.getD i [])) }

/-- The result dict stored by `EMDAnalyzer.analyze_signal`. -/
structure AnalysisResult where
  signal_name : String
  original_signal : List ℚ
  imfs : List (List ℚ)
  n_imfs : Nat
  frequencies : List (List ℚ)
  amplitudes : List (List ℚ)
  statistics : Statistics
  dt : ℚ
deriving Repr, DecidableEq

/-- A default result record, used only as the `Option.getD` fallback when a
theorem needs to name the payload of a run already known to have succeeded. -/
def emptyResult : AnalysisResult :=
  { signal_name := "", original_signal := [], imfs := [], n_imfs := 0,
    frequencies := [], amplitudes := [], statistics := ⟨[], [], []⟩, dt := 0 }

/-- `EMDAnalyzer.results`: the keyed results cache, a python dict modelled as
an association list with unique keys in insertion order. -/
abbrev Store := List (String × AnalysisResult)

/-- `self.results[name] = result`: python dict assignment — replace the value
in place when the key exists, otherwise append the new binding. -/
def storeResult (st : Store) (k : String) (v : AnalysisResult) : Store :=
  if st.any (fun p => p.1 == k) then
    st.map (fun p => if p.1 == k then (k, v) else p)
  else st ++ [(k, v)]

/-- `EMDAnalyzer.get_analysis_results`: `self.results.get(signal_name)`. -/
def get_analysis_results (st : Store) (k : String) : Option AnalysisResult :=
  (st.find? (fun p => p.1 == k)).map Prod.snd

/-- `EMDAnalyzer.list_analyzed_signals`: `list(self.results.keys())`. -/
def list_analyzed_signals (st : Store) : List String := st.map Prod.fst

/-- The result dict built by `EMDAnalyzer.analyze_signal` on the non-aborting
path: EMD decomposition, Hilbert transform, WAFA smoothing (default window
30), statistics. -/
def analysisBundle (hAmp hPhase : List ℚ → List ℚ) (tpi dt : ℚ)
    (signal : List ℚ) (signal_name : String) : AnalysisResult :=
  let imfs := simple_emd signal
  let fa := compute_instantaneous_frequency hAmp hPhase tpi dt imfs
  let smoothed := wafa_smoothing 30 fa.1 fa.2
  { signal_name := signal_name, original_signal := signal, imfs := imfs,
    n_imfs := imfs.length, frequencies := smoothed, amplitudes := fa.2,
    statistics := compute_statistics smoothed fa.2, dt := dt }

/-- `EMDAnalyzer.analyze_signal` (with `EMD.emd` in its PyEMD-less fallback,
i.e. `_simple_emd`).  When the decomposition yields no true mode,
`np.array(frequencies).T` is one-dimensional and `wafa_smoothing`'s shape
unpacking `n_samples, n_imfs = frequencies.shape` raises a `ValueError`; that
abort is modelled as `none`.  Otherwise the full bundle is built, cached under
the signal's name, and returned together with the updated cache. -/
def analyze_signal (hAmp hPhase : List ℚ → List ℚ) (tpi dt : ℚ) (st : Store)
    (signal : List ℚ) (signal_name : String) : Option (AnalysisResult × Store) :=
  if (compute_instantaneous_frequency hAmp hPhase tpi dt (simple_emd signal)).1.length = 0 then
    none
  else
    some (analysisBundle hAmp hPhase tpi dt signal signal_name,
          storeResult st signal_name (analysisBundle hAmp hPhase tpi dt signal signal_name))

/-- The all-zero vector, `np.zeros(n)`. -/
def zeroVec (n : Nat) : List ℚ := List.replicate n 0

/-- Elementwise sum of a list of n-vectors (`sum(modes)` in the spec's
reconstruction property). -/
def sumRows (rows : List (List ℚ)) (n : Nat) : List ℚ := rows.foldr addVec (zeroVec n)

/-- Concrete signal (non-constant, length 4) used to witness successful runs. -/
def demoSignal : List ℚ := [1, 2, 3, 4]

/-- Concrete tiny-variance signal: its first sifted candidate already has
`np.std < 1e-10`, yet the signal itself has `np.std > 1e-10`, so the
decomposition returns just the residual. -/
def tinySignal : List ℚ := [0, 0, 0, 4 / 10 ^ 10]

/-- Name under which witness runs are cached. -/
def demoName : String := "demo"

/-- Name used for the constant-signal run. -/
def constName : String := "constant"

/-- A name that is never analyzed. -/
def absentName : String := "absent"

/-- Concrete IMF matrix (one true mode plus a residue row) for witnesses. -/
def demoImfs : List (List ℚ) := [[0, 1, 3], [9, 9, 9]]

example : (analyze_signal id id 6 1 [] (List.replicate 4 (42 : ℚ)) constName).isSome = false := by
  with_unfolding_all decide

example : (analyze_signal id id 6 1 [] demoSignal demoName).isSome = true := by
  with_unfolding_all decide

/-! ## Helper lemmas -/

theorem simpleEmdLoop_succ (fuel : Nat) (r : List ℚ) :
    simpleEmdLoop (fuel + 1) r =
      if r.length < 4 then ([], r)
      else if npVar (sift r) < stdTol ^ 2 then ([], r)
      else (sift r :: (simpleEmdLoop fuel (subVec r (sift r))).1,
            (simpleEmdLoop fuel (subVec r (sift r))).2) := rfl

theorem npMean_replicate (n : Nat) (c : ℚ) (hn : n ≠ 0) :
    npMean (List.replicate n c) = c := by
  have h : (n : ℚ) ≠ 0 := Nat.cast_ne_zero.mpr hn
  simp only [npMean, List.sum_replicate, List.length_replicate, nsmul_eq_mul]
  exact mul_div_cancel_left₀ c h

theorem npVar_replicate (n : Nat) (c : ℚ) : npVar (List.replicate n c) = 0 := by
  cases n with
  | zero => simp [npVar, npMean]
  | succ m =>
    have h := npMean_replicate (m + 1) c (Nat.succ_ne_zero m)
    simp [npVar, h, List.map_replicate, List.sum_replicate]

theorem stdTolSq_pos : 0 < stdTol ^ 2 := by norm_num [stdTol]

theorem sift_replicate (n : Nat) (c : ℚ) :
    sift (List.replicate n c) = List.replicate n (c * (1 / 10)) := by
  simp [sift, List.map_replicate]

theorem sift_length (r : List ℚ) : (sift r).length = r.length := by
  simp [sift]

theorem subVec_length_self (r s : List ℚ) (h : s.length = r.length) :
    (subVec r s).length = r.length := by
  simp [subVec, h]

theorem addVec_zero_left (xs : List ℚ) : addVec (zeroVec xs.length) xs = xs := by
  induction xs with
  | nil => rfl
  | cons a t ih =>
    simp only [zeroVec, List.length_cons, List.replicate_succ] at *
    simp [addVec, List.zipWith] at *
    exact ih

theorem addVec_zero_right (xs : List ℚ) : addVec xs (zeroVec xs.length) = xs := by
  induction xs with
  | nil => rfl
  | cons a t ih =>
    simp only [zeroVec, List.length_cons, List.replicate_succ] at *
    simp [addVec, List.zipWith] at *
    exact ih

theorem addVec_cons (a b : ℚ) (as bs : List ℚ) :
    addVec (a :: as) (b :: bs) = (a + b) :: addVec as bs := rfl

theorem addVec_assoc (as bs cs : List ℚ) :
    addVec (addVec as bs) cs = addVec as (addVec bs cs) := by
  induction as generalizing bs cs with
  | nil => rfl
  | cons a as ih =>
    cases bs with
    | nil => rfl
    | cons b bs =>
      cases cs with
      | nil => rfl
      | cons c cs => rw [addVec_cons, addVec_cons, addVec_cons, addVec_cons, add_assoc, ih]

theorem addVec_sub_cancel (xs ys : List ℚ) (h : ys.length = xs.length) :
    addVec ys (subVec xs ys) = xs := by
  induction xs generalizing ys with
  | nil =>
    cases ys with
    | nil => rfl
    | cons b t => simp at h
  | cons a t ih =>
    cases ys with
    | nil => simp at h
    | cons b s =>
      simp only [List.length_cons, Nat.succ.injEq] at h
      simp [addVec, subVec] at *
      exact ih s h

theorem foldr_addVec_shift (rows : List (List ℚ)) (c : List ℚ) (n : Nat)
    (hc : c.length = n) :
    List.foldr addVec c rows = addVec (sumRows rows n) c := by
  induction rows with
  | nil =>
    simp only [List.foldr_nil, sumRows]
    subst hc
    exact (addVec_zero_left c).symm
  | cons r t ih =>
    simp only [List.foldr_cons, sumRows] at *
    rw [ih, addVec_assoc]

theorem simpleEmdLoop_invariant (fuel : Nat) (r : List ℚ) :
    (simpleEmdLoop fuel r).2.length = r.length ∧
    (∀ m ∈ (simpleEmdLoop fuel r).1, m.length = r.length) ∧
    addVec (sumRows (simpleEmdLoop fuel r).1 r.length) (simpleEmdLoop fuel r).2 = r := by
  induction fuel generalizing r with
  | zero =>
    refine ⟨rfl, by simp [simpleEmdLoop], ?_⟩
    show addVec (sumRows [] r.length) r = r
    simpa [sumRows] using addVec_zero_left r
  | succ fuel ih =>
    rw [simpleEmdLoop_succ]
    by_cases h4 : r.length < 4
    · rw [if_pos h4]
      exact ⟨rfl, by simp, by simpa [sumRows] using addVec_zero_left r⟩
    · rw [if_neg h4]
      by_cases hv : npVar (sift r) < stdTol ^ 2
      · rw [if_pos hv]
        exact ⟨rfl, by simp, by simpa [sumRows] using addVec_zero_left r⟩
      · rw [if_neg hv]
        have hslen : (sift r).length = r.length := sift_length r
        have hlen : (subVec r (sift r)).length = r.length :=
          subVec_length_self r (sift r) hslen
        obtain ⟨ihlen, ihrows, ihsum⟩ := ih (subVec r (sift r))
        rw [hlen] at ihlen ihsum
        refine ⟨ihlen, ?_, ?_⟩
        · intro m hm
          rcases List.mem_cons.mp hm with hm | hm
          · rw [hm]; exact hslen
          · exact (ihrows m hm).trans hlen
        · show addVec (sumRows (sift r :: _) r.length) _ = r
          simp only [sumRows, List.foldr_cons]
          rw [addVec_assoc]
          show addVec (sift r) (addVec (sumRows _ r.length) _) = r
          rw [ihsum]
          exact addVec_sub_cancel r (sift r) hslen

/-! ## C1: lossless reconstruction -/

/-- C1 counterexample: for the constant signal `[42, 42, 42, 42]` (accepted by
the decomposer), the returned collection is empty — the near-zero-variance
residual is dropped — so the sum of all returned sequences is the zero vector,
not the signal: reconstruction fails by 42 on every sample, far outside any
floating-point tolerance. -/
theorem C1_counterexample :
    simple_emd (List.replicate 4 (42 : ℚ)) = [] ∧
    sumRows (simple_emd (List.replicate 4 (42 : ℚ))) 4 ≠ List.replicate 4 (42 : ℚ) := by
  with_unfolding_all decide

/-- C1 (amended): whenever the final residual's standard deviation exceeds
`1e-10` — i.e. whenever `_simple_emd` appends the residual to its output —
summing all returned sequences (modes plus residual) reproduces the original
signal sample-by-sample, exactly.  When the residual is dropped, the
reconstruction is off by exactly that near-constant residual. -/
theorem C1_lossless_reconstruction (signal : List ℚ)
    (h : stdTol ^ 2 < npVar (emdResidue signal)) :
    sumRows (simple_emd signal) signal.length = signal := by
  obtain ⟨hlen, hrows, hsum⟩ := simpleEmdLoop_invariant 10 signal
  have h' : stdTol ^ 2 < npVar (simpleEmdLoop 10 signal).2 := h
  unfold simple_emd
  rw [if_pos h']
  simp only [sumRows, List.foldr_append, List.foldr_cons, List.foldr_nil]
  have hbase : addVec (simpleEmdLoop 10 signal).2 (zeroVec signal.length) =
      (simpleEmdLoop 10 signal).2 := by
    rw [← hlen]
    exact addVec_zero_right _
  rw [hbase, foldr_addVec_shift _ _ _ hlen]
  exact hsum

/-- C1 witness: a concrete length-4 signal whose residual passes the variance
test, on which the reconstruction identity holds. -/
theorem C1_lossless_reconstruction_witness :
    stdTol ^ 2 < npVar (emdResidue tinySignal) ∧
    sumRows (simple_emd tinySignal) tinySignal.length = tinySignal :=
  ⟨by with_unfolding_all decide,
   C1_lossless_reconstruction tinySignal (by with_unfolding_all decide)⟩

/-! ## C2: short inputs -/

/-- C2 counterexample: an input of length 3 does not fail and does not produce
an empty result — no `InsufficientLength` error exists anywhere in the code;
the decomposer silently returns the whole signal as a single (residual)
sequence. -/
theorem C2_counterexample :
    simple_emd [1, 2, 3] = [[1, 2, 3]] ∧ simple_emd [1, 2, 3] ≠ [] := by
  with_unfolding_all decide

/-- C2 (amended): for every input shorter than 4 samples the decomposer raises
no error and extracts no mode: the loop exits on its first iteration and the
result is `[signal]` when the signal's standard deviation exceeds `1e-10`, and
`[]` otherwise. -/
theorem C2_short_input_behaviour (signal : List ℚ) (h : signal.length < 4) :
    simple_emd signal = if stdTol ^ 2 < npVar signal then [signal] else [] := by
  have hloop : simpleEmdLoop 10 signal = ([], signal) := by
    rw [show (10 : Nat) = 9 + 1 from rfl, simpleEmdLoop_succ, if_pos h]
  unfold simple_emd
  rw [hloop]
  show (if stdTol ^ 2 < npVar signal then [] ++ [signal] else []) =
    if stdTol ^ 2 < npVar signal then [signal] else []
  by_cases hv : stdTol ^ 2 < npVar signal
  · rw [if_pos hv, if_pos hv, List.nil_append]
  · rw [if_neg hv, if_neg hv]

/-- C2 witness: the length-3 input `[1, 2, 3]`. -/
theorem C2_short_input_behaviour_witness :
    ([1, 2, 3] : List ℚ).length < 4 ∧
    simple_emd [1, 2, 3] = if stdTol ^ 2 < npVar [1, 2, 3] then [[1, 2, 3]] else [] :=
  ⟨by decide, by
    have := C2_short_input_behaviour [1, 2, 3] (by decide)
    simpa using this⟩

/-! ## C3: constant signals -/

set_option maxRecDepth 4000 in
/-- C3 counterexample: for the constant signal `[42] * 50` the decomposer
returns the empty collection, not a one-element collection holding the input:
the constant residual has zero standard deviation and is dropped. -/
theorem C3_counterexample :
    simple_emd (List.replicate 50 (42 : ℚ)) = [] ∧
    simple_emd (List.replicate 50 (42 : ℚ)) ≠ [List.replicate 50 (42 : ℚ)] := by
  with_unfolding_all decide

/-- C3 (amended): every constant signal yields zero true modes, and the
residual (the input itself) is also dropped because its standard deviation, 0,
is not above the `1e-10` threshold: the returned collection is empty. -/
theorem C3_constant_signal (n : Nat) (c : ℚ) :
    simple_emd (List.replicate n c) = [] := by
  have hloop : simpleEmdLoop 10 (List.replicate n c) = ([], List.replicate n c) := by
    rw [show (10 : Nat) = 9 + 1 from rfl, simpleEmdLoop_succ]
    by_cases h4 : (List.replicate n c).length < 4
    · rw [if_pos h4]
    · rw [if_neg h4, if_pos]
      rw [sift_replicate, npVar_replicate]
      exact stdTolSq_pos
  unfold simple_emd
  rw [hloop]
  rw [if_neg]
  rw [npVar_replicate]
  exact not_lt_of_le (le_of_lt stdTolSq_pos)

/-! ## More helper lemmas: indexed access -/

theorem getD_range_map {α : Type} (f : Nat → α) (n j : Nat) (d : α) (h : j < n) :
    (((List.range n).map f).getD j d) = f j := by
  rw [List.getD_eq_getElem?_getD, List.getElem?_map, List.getElem?_range h, Option.map_some']
  rfl

theorem getD_map_of_lt {α β : Type} (f : α → β) (l : List α) (j : Nat) (d : β) (a : α)
    (h : j < l.length) :
    ((l.map f).getD j d) = f (l.getD j a) := by
  rw [List.getD_eq_getElem?_getD, List.getElem?_map, List.getElem?_eq_getElem h,
    Option.map_some', Option.getD_some, List.getD_eq_getElem?_getD,
    List.getElem?_eq_getElem h, Option.getD_some]

theorem npDiff_length (xs : List ℚ) : (npDiff xs).length = xs.length - 1 := by
  simp only [npDiff, List.length_zipWith, List.length_tail]
  omega

theorem padLast_length (xs : List ℚ) (h : xs ≠ []) : (padLast xs).length = xs.length + 1 := by
  unfold padLast
  rw [List.length_append]
  cases hx : xs.getLast? with
  | none => exact absurd (List.getLast?_eq_none_iff.mp hx) h
  | some a => simp

theorem getD_dropLast {α : Type} (l : List α) (j : Nat) (d : α) (h : j + 1 < l.length) :
    (l.dropLast.getD j d) = l.getD j d := by
  have hj : j < l.dropLast.length := by
    rw [List.length_dropLast]; omega
  have hj' : j < l.length := by omega
  rw [List.getD_eq_getElem?_getD, List.getD_eq_getElem?_getD,
    List.getElem?_eq_getElem hj, List.getElem?_eq_getElem hj']
  rw [List.getElem_dropLast]

/-! ## C4: completion versus abort of the full analysis -/

/-- C4 counterexample: the constant signal `[42, 42, 42, 42]` has length 4,
yet the full analysis aborts (the decomposition yields no true mode, so the
smoothing stage's shape unpacking raises a `ValueError`); the degenerate
signal is not degraded to a fallback value. -/
theorem C4_counterexample :
    (List.replicate 4 (42 : ℚ)).length = 4 ∧
    (analyze_signal id id 6 1 [] (List.replicate 4 (42 : ℚ)) constName).isSome = false := by
  constructor
  · decide
  · with_unfolding_all decide

/-- C4 (amended): the full analysis completes and returns a result bundle
exactly when the decomposition produces at least one true mode besides the
residual (at least two sequences); when it produces fewer — e.g. for constant
or near-constant signals, a numerical edge case — the smoothing stage fails on
a shape error instead of degrading to a fallback value. -/
theorem C4_analysis_completes (hAmp hPhase : List ℚ → List ℚ) (tpi dt : ℚ)
    (st : Store) (signal : List ℚ) (name : String)
    (h : 2 ≤ (simple_emd signal).length) :
    (analyze_signal hAmp hPhase tpi dt st signal name).isSome = true := by
  unfold analyze_signal
  rw [if_neg]
  · rfl
  · unfold compute_instantaneous_frequency
    simp only [List.length_map, List.length_dropLast]
    omega

/-- C4 witness: the signal `[1, 2, 3, 4]` decomposes into 10 modes plus a
residual, and its analysis completes. -/
theorem C4_analysis_completes_witness :
    2 ≤ (simple_emd demoSignal).length ∧
    (analyze_signal id id 6 1 [] demoSignal demoName).isSome = true :=
  ⟨by with_unfolding_all decide,
   C4_analysis_completes id id 6 1 [] demoSignal demoName (by with_unfolding_all decide)⟩

/-! ## C5: amplitude-weighted smoothing -/

/-- C5: for every mode `i` and sample `j`, the smoothed frequency is: at
interior indices (`window/2 ≤ j < N - window/2`), the amplitude-weighted
average `sum(amplitude * freq) / sum(amplitude)` over the centered window when
the window's total amplitude is positive and the original value when it is
not; and at indices within half a window of either edge, the original value
unchanged. -/
theorem C5_wafa_smoothing (window : Nat) (frequencies amplitudes : List (List ℚ))
    (i j : Nat) (h : j < (frequencies.getD i []).length) :
    ((wafa_smoothing window frequencies amplitudes).getD i []).getD j 0 =
      if window / 2 ≤ j ∧ j + window / 2 < (frequencies.getD i []).length then
        (if 0 < (windowSlice (amplitudes.getD i []) j (window / 2)).sum then
          dotQ (windowSlice (amplitudes.getD i []) j (window / 2))
              (windowSlice (frequencies.getD i []) j (window / 2)) /
            (windowSlice (amplitudes.getD i []) j (window / 2)).sum
        else (frequencies.getD i []).getD j 0)
      else (frequencies.getD i []).getD j 0 := by
  by_cases hi : i < frequencies.length
  · unfold wafa_smoothing
    rw [getD_range_map _ _ _ _ hi]
    unfold wafaRow
    rw [getD_range_map _ _ _ _ h]
    rfl
  · exfalso
    rw [List.getD_eq_default _ _ (Nat.le_of_not_lt hi)] at h
    exact Nat.not_lt_zero j h

/-- C5 witness: window 30 on a 32-sample mode of constant frequency 2 and
constant amplitude 1; index 15 is interior and gets the weighted average. -/
theorem C5_wafa_smoothing_witness :
    15 < (([List.replicate 32 (2 : ℚ)].getD 0 []).length) ∧
    ((wafa_smoothing 30 [List.replicate 32 (2 : ℚ)] [List.replicate 32 (1 : ℚ)]).getD 0 []).getD 15 0 =
      (if 30 / 2 ≤ 15 ∧ 15 + 30 / 2 < (([List.replicate 32 (2 : ℚ)] : List (List ℚ)).getD 0 []).length then
        (if 0 < (windowSlice (([List.replicate 32 (1 : ℚ)] : List (List ℚ)).getD 0 []) 15 (30 / 2)).sum then
          dotQ (windowSlice (([List.replicate 32 (1 : ℚ)] : List (List ℚ)).getD 0 []) 15 (30 / 2))
              (windowSlice (([List.replicate 32 (2 : ℚ)] : List (List ℚ)).getD 0 []) 15 (30 / 2)) /
            (windowSlice (([List.replicate 32 (1 : ℚ)] : List (List ℚ)).getD 0 []) 15 (30 / 2)).sum
        else (([List.replicate 32 (2 : ℚ)] : List (List ℚ)).getD 0 []).getD 15 0)
      else (([List.replicate 32 (2 : ℚ)] : List (List ℚ)).getD 0 []).getD 15 0) :=
  ⟨by decide,
   C5_wafa_smoothing 30 [List.replicate 32 (2 : ℚ)] [List.replicate 32 (1 : ℚ)] 0 15 (by decide)⟩

/-! ## C6: instantaneous frequency and length reconciliation -/

theorem reconcile_eq_take_min (freq amp : List ℚ) :
    reconcile freq amp =
      (freq.take (min freq.length amp.length), amp.take (min freq.length amp.length)) := by
  unfold reconcile
  by_cases h1 : amp.length > freq.length
  · rw [if_pos h1]
    have hm : min freq.length amp.length = freq.length := by omega
    rw [hm, List.take_length]
  · rw [if_neg h1]
    by_cases h2 : freq.length > amp.length
    · rw [if_pos h2]
      have hm : min freq.length amp.length = amp.length := by omega
      rw [hm, List.take_length]
    · rw [if_neg h2]
      have he : freq.length = amp.length := by omega
      have hm : min freq.length amp.length = freq.length := by omega
      rw [hm, List.take_length, he, List.take_length]

/-- C6: for every true (non-residual) mode `i`, the returned frequency row is
`(1/dt) * np.diff(phase) / (2π)` padded with its last value and truncated to
the common length, the returned amplitude row is the analytic amplitude
truncated to the common length, and both rows have that same (minimum)
length. -/
theorem C6_instantaneous_frequency (hAmp hPhase : List ℚ → List ℚ) (tpi dt : ℚ)
    (imfs : List (List ℚ)) (i : Nat) (h1 : i + 1 < imfs.length)
    (h2 : 2 ≤ (hPhase (imfs.getD i [])).length) :
    (compute_instantaneous_frequency hAmp hPhase tpi dt imfs).1.getD i [] =
      (padLast ((npDiff (hPhase (imfs.getD i []))).map (fun x => 1 / dt * x / tpi))).take
        (min (padLast ((npDiff (hPhase (imfs.getD i []))).map (fun x => 1 / dt * x / tpi))).length
          (hAmp (imfs.getD i [])).length) ∧
    (compute_instantaneous_frequency hAmp hPhase tpi dt imfs).2.getD i [] =
      (hAmp (imfs.getD i [])).take
        (min (padLast ((npDiff (hPhase (imfs.getD i []))).map (fun x => 1 / dt * x / tpi))).length
          (hAmp (imfs.getD i [])).length) ∧
    ((compute_instantaneous_frequency hAmp hPhase tpi dt imfs).1.getD i []).length =
      min (padLast ((npDiff (hPhase (imfs.getD i []))).map (fun x => 1 / dt * x / tpi))).length
        (hAmp (imfs.getD i [])).length ∧
    ((compute_instantaneous_frequency hAmp hPhase tpi dt imfs).2.getD i []).length =
      min (padLast ((npDiff (hPhase (imfs.getD i []))).map (fun x => 1 / dt * x / tpi))).length
        (hAmp (imfs.getD i [])).length ∧
    (padLast ((npDiff (hPhase (imfs.getD i []))).map (fun x => 1 / dt * x / tpi))).length =
      (hPhase (imfs.getD i [])).length := by
  have hdl : i < imfs.dropLast.length := by
    rw [List.length_dropLast]; omega
  have hrow : imfs.dropLast.getD i [] = imfs.getD i [] := getD_dropLast imfs i [] h1
  have hd : ((npDiff (hPhase (imfs.getD i []))).map (fun x => 1 / dt * x / tpi)).length =
      (hPhase (imfs.getD i [])).length - 1 := by
    rw [List.length_map, npDiff_length]
  have hne : (npDiff (hPhase (imfs.getD i []))).map (fun x => 1 / dt * x / tpi) ≠ [] := by
    intro hemp
    have h0 : ((npDiff (hPhase (imfs.getD i []))).map (fun x => 1 / dt * x / tpi)).length = 0 := by
      rw [hemp]
      rfl
    rw [hd] at h0
    omega
  have hpad : (padLast ((npDiff (hPhase (imfs.getD i []))).map (fun x => 1 / dt * x / tpi))).length =
      (hPhase (imfs.getD i [])).length := by
    rw [padLast_length _ hne, hd]
    omega
  unfold compute_instantaneous_frequency
  rw [getD_map_of_lt _ _ _ _ [] hdl, getD_map_of_lt _ _ _ _ [] hdl, hrow]
  unfold imfFreqAmp
  rw [reconcile_eq_take_min]
  unfold instFreqOf
  refine ⟨rfl, rfl, ?_, ?_, hpad⟩
  · rw [List.length_take]
    omega
  · rw [List.length_take]
    omega

/-- C6 witness: two IMF rows (one true mode, one residue), identity amplitude
and phase, `dt = 1`, `tpi = 6`. -/
theorem C6_instantaneous_frequency_witness :
    0 + 1 < demoImfs.length ∧
    2 ≤ (id (demoImfs.getD 0 [])).length ∧
    ((compute_instantaneous_frequency id id 6 1 demoImfs).1.getD 0 [] =
      (padLast ((npDiff (id (demoImfs.getD 0 []))).map (fun x => 1 / 1 * x / 6))).take
        (min (padLast ((npDiff (id (demoImfs.getD 0 []))).map (fun x => 1 / 1 * x / 6))).length
          (id (demoImfs.getD 0 [])).length) ∧
    (compute_instantaneous_frequency id id 6 1 demoImfs).2.getD 0 [] =
      (id (demoImfs.getD 0 [])).take
        (min (padLast ((npDiff (id (demoImfs.getD 0 []))).map (fun x => 1 / 1 * x / 6))).length
          (id (demoImfs.getD 0 [])).length) ∧
    ((compute_instantaneous_frequency id id 6 1 demoImfs).1.getD 0 []).length =
      min (padLast ((npDiff (id (demoImfs.getD 0 []))).map (fun x => 1 / 1 * x / 6))).length
        (id (demoImfs.getD 0 [])).length ∧
    ((compute_instantaneous_frequency id id 6 1 demoImfs).2.getD 0 []).length =
      min (padLast ((npDiff (id (demoImfs.getD 0 []))).map (fun x => 1 / 1 * x / 6))).length
        (id (demoImfs.getD 0 [])).length ∧
    (padLast ((npDiff (id (demoImfs.getD 0 []))).map (fun x => 1 / 1 * x / 6))).length =
      (id (demoImfs.getD 0 [])).length) :=
  ⟨by decide, by decide,
   C6_instantaneous_frequency id id 6 1 demoImfs 0 (by decide) (by decide)⟩

/-! ## C7: mean period versus mean frequency -/

/-- C7 counterexample: a mode with amplitude `[1]` and (smoothed) frequency
`[-1]` has amplitude-weighted mean frequency `-1 ≠ 0`, yet its mean period is
`0`, not `1 / (-1)`: the source guards with `mean_freq > 0`, not
`mean_freq != 0`, and instantaneous frequencies can be negative. -/
theorem C7_counterexample :
    (compute_statistics [[-1]] [[1]]).mean_frequencies = [-1] ∧
    (compute_statistics [[-1]] [[1]]).mean_periods = [0] ∧
    ¬((-1 : ℚ) = 0) ∧ ¬((0 : ℚ) = 1 / (-1 : ℚ)) := by
  with_unfolding_all decide

/-- C7 (amended): for every mode, `mean_period = 1 / mean_frequency` whenever
`mean_frequency > 0`, and `mean_period = 0` otherwise — including both the
zero and the negative mean-frequency cases. -/
theorem C7_mean_period_rule (frequencies amplitudes : List (List ℚ)) (i : Nat) :
    (compute_statistics frequencies amplitudes).mean_periods.getD i 0 =
      if 0 < (compute_statistics frequencies amplitudes).mean_frequencies.getD i 0 then
        1 / (compute_statistics frequencies amplitudes).mean_frequencies.getD i 0
      else 0 := by
  unfold compute_statistics
  by_cases hi : i < frequencies.length
  · rw [getD_range_map _ _ _ _ hi, getD_range_map _ _ _ _ hi]
    rfl
  · have hn : frequencies.length ≤ i := Nat.le_of_not_lt hi
    rw [List.getD_eq_default, List.getD_eq_default]
    · simp
    · simpa using hn
    · simpa using hn

/-! ## C8: cache round-trip -/

theorem find?_map_replace (t : Store) (k : String) (v : AnalysisResult)
    (h : t.any (fun p => p.1 == k) = true) :
    (t.map (fun p => if p.1 == k then (k, v) else p)).find? (fun p => p.1 == k) =
      some (k, v) := by
  induction t with
  | nil => simp at h
  | cons p t ih =>
    simp only [List.map_cons]
    by_cases hp : (p.1 == k) = true
    · rw [if_pos hp]
      exact List.find?_cons_of_pos _ (by simp)
    · rw [if_neg hp]
      rw [List.find?_cons_of_neg _ (by simpa using hp)]
      apply ih
      simp only [List.any_cons, hp, Bool.false_or] at h
      exact h

theorem find?_append_single (t : Store) (k : String) (v : AnalysisResult)
    (h : t.any (fun p => p.1 == k) = false) :
    (t ++ [(k, v)]).find? (fun p => p.1 == k) = some (k, v) := by
  induction t with
  | nil => exact List.find?_cons_of_pos ([] : Store) (by simp)
  | cons p t ih =>
    simp only [List.any_cons, Bool.or_eq_false_iff] at h
    rw [List.cons_append, List.find?_cons_of_neg _ (by simp [h.1])]
    exact ih h.2

theorem get_storeResult (st : Store) (k : String) (v : AnalysisResult) :
    get_analysis_results (storeResult st k v) k = some v := by
  unfold get_analysis_results storeResult
  by_cases hany : st.any (fun p => p.1 == k) = true
  · rw [if_pos hany, find?_map_replace st k v hany]
    rfl
  · have hfalse : st.any (fun p => p.1 == k) = false := by
      simp only [Bool.not_eq_true] at hany
      exact hany
    rw [if_neg hany, find?_append_single st k v hfalse]
    rfl

theorem mem_keys_storeResult (st : Store) (k : String) (v : AnalysisResult) :
    k ∈ list_analyzed_signals (storeResult st k v) := by
  unfold list_analyzed_signals storeResult
  by_cases hany : st.any (fun p => p.1 == k) = true
  · rw [if_pos hany]
    obtain ⟨p, hp, hpk⟩ := List.any_eq_true.mp hany
    refine List.mem_map.mpr ⟨(k, v), List.mem_map.mpr ⟨p, hp, ?_⟩, rfl⟩
    rw [if_pos hpk]
  · rw [if_neg hany]
    simp

/-- C8: whenever `analyze_signal` returns a result bundle, looking the signal
name up in the updated cache returns exactly that bundle, and the name appears
in the list of analyzed signals. -/
theorem C8_cache_roundtrip (hAmp hPhase : List ℚ → List ℚ) (tpi dt : ℚ) (st : Store)
    (signal : List ℚ) (name : String)
    (h : (analyze_signal hAmp hPhase tpi dt st signal name).isSome = true) :
    get_analysis_results
        ((analyze_signal hAmp hPhase tpi dt st signal name).getD (emptyResult, [])).2 name =
      some ((analyze_signal hAmp hPhase tpi dt st signal name).getD (emptyResult, [])).1 ∧
    name ∈ list_analyzed_signals
        ((analyze_signal hAmp hPhase tpi dt st signal name).getD (emptyResult, [])).2 := by
  unfold analyze_signal at *
  by_cases hc :
      (compute_instantaneous_frequency hAmp hPhase tpi dt (simple_emd signal)).1.length = 0
  · rw [if_pos hc] at h
    simp at h
  · rw [if_neg hc]
    simp only [Option.getD_some]
    exact ⟨get_storeResult st name _, mem_keys_storeResult st name _⟩

/-- C8 witness: a full concrete run of `analyze_signal` on `[1, 2, 3, 4]`. -/
theorem C8_cache_roundtrip_witness :
    (analyze_signal id id 6 1 [] demoSignal demoName).isSome = true ∧
    (get_analysis_results
        ((analyze_signal id id 6 1 [] demoSignal demoName).getD (emptyResult, [])).2 demoName =
      some ((analyze_signal id id 6 1 [] demoSignal demoName).getD (emptyResult, [])).1 ∧
    demoName ∈ list_analyzed_signals
        ((analyze_signal id id 6 1 [] demoSignal demoName).getD (emptyResult, [])).2) :=
  ⟨by with_unfolding_all decide,
   C8_cache_roundtrip id id 6 1 [] demoSignal demoName (by with_unfolding_all decide)⟩

/-! ## C9: zero total amplitude -/

/-- C9: for every mode whose amplitude sequence sums to zero, the
amplitude-weighted mean frequency is defined as 0, and consequently the mean
period is 0; the quotient `sum(amp * freq) / sum(amp)` is only taken under the
guard `sum(amp) > 0`, never with a zero denominator. -/
theorem C9_zero_amplitude_fallback (frequencies amplitudes : List (List ℚ)) (i : Nat)
    (h : (amplitudes.getD i []).sum = 0) :
    (compute_statistics frequencies amplitudes).mean_frequencies.getD i 0 = 0 ∧
    (compute_statistics frequencies amplitudes).mean_periods.getD i 0 = 0 := by
  unfold compute_statistics
  by_cases hi : i < frequencies.length
  · rw [getD_range_map _ _ _ _ hi, getD_range_map _ _ _ _ hi]
    have hmf : meanFreqOf (frequencies.getD i []) (amplitudes.getD i []) = 0 := by
      unfold meanFreqOf
      rw [h, if_neg (lt_irrefl 0)]
    refine ⟨hmf, ?_⟩
    show meanPeriodOf _ = 0
    rw [hmf]
    unfold meanPeriodOf
    rw [if_neg (lt_irrefl 0)]
  · have hn : frequencies.length ≤ i := Nat.le_of_not_lt hi
    rw [List.getD_eq_default, List.getD_eq_default]
    · exact ⟨rfl, rfl⟩
    · simpa using hn
    · simpa using hn

/-- C9 witness: one mode with frequency `[5]` and amplitude `[0]`. -/
theorem C9_zero_amplitude_fallback_witness :
    (([[0]] : List (List ℚ)).getD 0 []).sum = 0 ∧
    ((compute_statistics [[5]] [[0]]).mean_frequencies.getD 0 0 = 0 ∧
     (compute_statistics [[5]] [[0]]).mean_periods.getD 0 0 = 0) :=
  ⟨by with_unfolding_all decide,
   C9_zero_amplitude_fallback [[5]] [[0]] 0 (by with_unfolding_all decide)⟩

/-! ## C10: lookup of a name that was never analyzed -/

/-- C10: for every signal name absent from the cache's key list,
`get_analysis_results` returns `None` rather than raising. -/
theorem C10_absent_name_returns_none (st : Store) (name : String)
    (h : name ∉ list_analyzed_signals st) :
    get_analysis_results st name = none := by
  unfold get_analysis_results
  rw [List.find?_eq_none.mpr]
  · rfl
  · intro p hp hpk
    exact h (List.mem_map.mpr ⟨p, hp, by simpa using hpk⟩)

/-- C10 witness: the empty cache and an arbitrary name. -/
theorem C10_absent_name_returns_none_witness :
    absentName ∉ list_analyzed_signals [] ∧
    get_analysis_results [] absentName = none :=
  ⟨by simp [list_analyzed_signals],
   C10_absent_name_returns_none [] absentName (by simp [list_analyzed_signals])⟩

end EMDA
